import Mathlib

/-!
Shallow embedding of `src/uefi_decompress/src/lib.rs` (microsoft/mu_rust_helpers).

Modelling conventions:
* Byte slices are `List Nat` (each element a `u8`, reduced `% 256` where read).
* The `bitvec` Msb0 bit view of the source is a `List Bool` (most significant
  bit of each byte first), produced by `viewBits`.
* Fixed-size arrays (`left`, `right`, `c_len`, `pt_len`, `c_table`, `pt_table`)
  are total functions `Nat → Nat`; the source never indexes them out of bounds
  on the paths modelled here, and every value stored is a machine integer that
  fits its element type.
* `u16` arithmetic that wraps in the source (`wrapping_add`, shifts) is
  modelled with explicit `% 65536`.
* Fallible code returns `DRes`: `ok`, `err` (the source's `Result::Err`), or
  `panic` for operations that are a Rust panic under debug assertions
  (arithmetic under/overflow such as `remaining_block_size -= 1` at 0, a
  failed `assert!`, an out-of-bounds destination index, a failed `try_into`).
* Loops whose trip count is data-dependent take an explicit fuel argument so
  that every definition is structurally recursive and executable; callers pass
  fuel large enough that the fuel-out branch (`DRes.panic`) is unreachable
  (each such loop either terminates or runs the bit cursor off the end of the
  stream, which is an error, first).
* The iterator's `is_error` latch is not modelled: it only makes `next` return
  `None` after an error was already returned, and `decompress_into_with_algo`
  stops at the first error, so the latch is unobservable from the entry point.
-/

namespace UefiDecompress

/-- Decompress error kinds (lib.rs lines 5-10). -/
inductive DecompressError where
  | InvalidSrcSize
  | InvalidDstSize
  | MalformedSrcData
deriving DecidableEq

/-- Supported decompression algorithms (lib.rs lines 13-17). -/
inductive DecompressionAlgorithm where
  | UefiDecompress
  | TianoDecompress
deriving DecidableEq

/-- Outcome of running a piece of the decompressor: a value, a returned
`DecompressError`, or a Rust panic (debug-assertion arithmetic overflow,
failed `assert!`/`expect`, out-of-bounds slice index). -/
inductive DRes (α : Type) where
  | ok : α → DRes α
  | err : DecompressError → DRes α
  | panic : DRes α
deriving DecidableEq

def DRes.bind {α β : Type} : DRes α → (α → DRes β) → DRes β
  | .ok a, f => f a
  | .err e, _ => .err e
  | .panic, _ => .panic

instance : Monad DRes where
  pure := DRes.ok
  bind := DRes.bind

def DRes.isOk {α : Type} : DRes α → Bool
  | .ok _ => true
  | _ => false

/-- Point update of a function-modelled array. -/
def setF (f : Nat → Nat) (i v : Nat) : Nat → Nat :=
  fun j => if j = i then v else f j

/-- Range fill `f[lo..hi] = v` of a function-modelled array. -/
def fillF (f : Nat → Nat) (lo hi v : Nat) : Nat → Nat :=
  fun j => if lo ≤ j ∧ j < hi then v else f j

/-- Big-endian (Msb0) value of a bit slice, as `bitvec`'s `load_be`. -/
def loadBE (bits : List Bool) : Nat :=
  bits.foldl (fun acc b => 2 * acc + (if b then 1 else 0)) 0

/-- The eight bits of a byte, most significant first (`view_bits::<Msb0>`). -/
def byteBits (b : Nat) : List Bool :=
  [Nat.testBit (b % 256) 7, Nat.testBit (b % 256) 6, Nat.testBit (b % 256) 5,
   Nat.testBit (b % 256) 4, Nat.testBit (b % 256) 3, Nat.testBit (b % 256) 2,
   Nat.testBit (b % 256) 1, Nat.testBit (b % 256) 0]

/-- Msb0 bit view of a byte slice. -/
def viewBits (bytes : List Nat) : List Bool :=
  (bytes.map byteBits).flatten

/-- Little-endian `u32` from four bytes (`u32::from_le_bytes`). -/
def leU32 (b0 b1 b2 b3 : Nat) : Nat :=
  b0 % 256 + 256 * (b1 % 256) + 65536 * (b2 % 256) + 16777216 * (b3 % 256)

/-! Alphabet-size constants (lib.rs lines 90-105). -/

abbrev NC : Nat := 510
abbrev CBIT : Nat := 9
abbrev CTABLE_BITSIZE : Nat := 12
abbrev NT : Nat := 19
abbrev TBIT : Nat := 5
abbrev PTABLE_BITSIZE : Nat := 8
abbrev MAXNP : Nat := 31
abbrev NPT : Nat := 31

/-- The decoded symbols (lib.rs lines 85-88). -/
inductive CodeSymbol where
  | OrigChar (c : Nat)
  | StrPointer (offset len : Nat)
deriving DecidableEq

/-- `CodeIterator` state (lib.rs lines 107-119), minus the unobservable
`is_error` latch. -/
structure CodeIterState where
  src : List Bool
  srcIndex : Nat
  remainingBlockSize : Nat
  left : Nat → Nat
  right : Nat → Nat
  cLen : Nat → Nat
  ptLen : Nat → Nat
  cTable : Nat → Nat
  ptTable : Nat → Nat
  pBit : Nat

/-- The Position Set count-field width selected by the algorithm variant
(lib.rs lines 135-138): 4 bits for `UefiDecompress`, 5 for
`TianoDecompress`. This is the only place the algorithm selector is read. -/
def pBitOf : DecompressionAlgorithm → Nat
  | .UefiDecompress => 4
  | .TianoDecompress => 5

/-- `CodeIterator::new` (lib.rs lines 123-140), with the variant already
reduced to its `p_bit` width. -/
def initState (srcBytes : List Nat) (pBit : Nat) : CodeIterState where
  src := viewBits srcBytes
  srcIndex := 0
  remainingBlockSize := 0
  left := fun _ => 0
  right := fun _ => 0
  cLen := fun _ => 0
  ptLen := fun _ => 0
  cTable := fun _ => 0
  ptTable := fun _ => 0
  pBit := pBit

/-- `CodeIterator::pop_bits` (lib.rs lines 143-150). -/
def popBits (st : CodeIterState) (count : Nat) : DRes (List Bool × CodeIterState) :=
  if st.srcIndex + count ≤ st.src.length then
    .ok ((st.src.drop st.srcIndex).take count, { st with srcIndex := st.srcIndex + count })
  else
    .err .MalformedSrcData

/-- `CodeIterator::peek_bits` (lib.rs lines 153-159). -/
def peekBits (st : CodeIterState) (count : Nat) : DRes (List Bool) :=
  if st.srcIndex + count ≤ st.src.length then
    .ok ((st.src.drop st.srcIndex).take count)
  else
    .err .MalformedSrcData

/-! ## Huffman table construction (`build_huffman_table`, lib.rs lines 454-600) -/

/-- The tally of symbols per bit length (lib.rs lines 465-471): iterate
`idx` upward over the first `r` symbols starting at `i`, failing on any
length above 16. -/
def tallyGo (bl : Nat → Nat) : Nat → Nat → (Nat → Nat) → DRes (Nat → Nat)
  | 0, _, acc => .ok acc
  | r + 1, i, acc =>
    if 16 < bl i then .err .MalformedSrcData
    else tallyGo bl r (i + 1) (setF acc (bl i) (acc (bl i) + 1))

/-- Canonical start offsets (lib.rs lines 475-480):
`start[1] = 0`, `start[idx+1] = start[idx].wrapping_add(count[idx] << (16-idx))`
in `u16` arithmetic. -/
def startAt (count : Nat → Nat) : Nat → Nat
  | 0 => 0
  | i + 1 =>
    if 1 ≤ i ∧ i ≤ 16 then
      (startAt count i + (count i <<< (16 - i)) % 65536) % 65536
    else 0

/-- The per-length table weight (lib.rs lines 489-497). -/
def weightAt (tableBits : Nat) (i : Nat) : Nat :=
  if 1 ≤ i ∧ i ≤ tableBits then 2 ^ (tableBits - i)
  else if tableBits + 1 ≤ i ∧ i ≤ 16 then 2 ^ (16 - i)
  else 0

/-- `TablePointer` (lib.rs lines 509-530). -/
inductive TablePointer where
  | Table (i : Nat)
  | Left (i : Nat)
  | Right (i : Nat)

/-- Mutable state threaded through `build_huffman_table`'s symbol loop. -/
structure BuildSt where
  table : Nat → Nat
  left : Nat → Nat
  right : Nat → Nat
  start : Nat → Nat
  nextAvail : Nat

def tpGet (st : BuildSt) : TablePointer → Nat
  | .Table i => st.table i
  | .Left i => st.left i
  | .Right i => st.right i

def tpSet (st : BuildSt) (tp : TablePointer) (v : Nat) : BuildSt :=
  match tp with
  | .Table i => { st with table := setF st.table i v }
  | .Left i => { st with left := setF st.left i v }
  | .Right i => { st with right := setF st.right i v }

/-- One allocation step of the secondary-tree walk (lib.rs lines 574-579):
when the current pointer holds 0 and an arena slot below `2*NC-1` is free,
store the fresh node id there and zero the new node's children. -/
def allocStep (st : BuildSt) (tp : TablePointer) : BuildSt :=
  if tpGet st tp = 0 ∧ st.nextAvail < 2 * NC - 1 then
    { tpSet st tp st.nextAvail with
      right := setF (tpSet st tp st.nextAvail).right st.nextAvail 0,
      left := setF (tpSet st tp st.nextAvail).left st.nextAvail 0,
      nextAvail := st.nextAvail + 1 }
  else st

/-- One descent step of the secondary-tree walk (lib.rs lines 581-587):
move the pointer to the left or right child selected by the top extended bit
of `bitstring`, when the pointed value is inside the arena. -/
def descendStep (st : BuildSt) (tp : TablePointer) (bitstring tableBits : Nat) : TablePointer :=
  if tpGet st tp < 2 * NC - 1 then
    if Nat.testBit bitstring (15 - tableBits) then TablePointer.Right (tpGet st tp)
    else TablePointer.Left (tpGet st tp)
  else tp

/-- The secondary-tree walk of one long symbol (lib.rs lines 573-591):
`steps` iterations of allocating/descending; `bitstring` is the `u16`
canonical code shifted left (mod 2^16) once per step. -/
def treeSteps (tableBits : Nat) : Nat → BuildSt → TablePointer → Nat → BuildSt × TablePointer
  | 0, st, tp, _ => (st, tp)
  | steps + 1, st, tp, bitstring =>
    treeSteps tableBits steps (allocStep st tp)
      (descendStep (allocStep st tp) tp bitstring tableBits) (bitstring * 2 % 65536)

/-- The `u16` `next_code = start[len].wrapping_add(weight[len])`
(lib.rs line 552). -/
def nextCodeOf (st : BuildSt) (tableBits len : Nat) : Nat :=
  (st.start len + weightAt tableBits len) % 65536

/-- The final store of the decoded symbol at the walked pointer plus the
`start` update (lib.rs lines 593 and 597); `char.try_into()` panics above
`u16::MAX`. -/
def buildSymTail (char len nextCode : Nat) (p : BuildSt × TablePointer) : DRes BuildSt :=
  if char < 65536 then
    .ok { tpSet p.1 p.2 char with start := setF (tpSet p.1 p.2 char).start len nextCode }
  else .panic

/-- Processing of one symbol `char` with bit length `len` in
`build_huffman_table`'s main loop (lib.rs lines 538-598). -/
def buildSym (tableBits char len : Nat) (st : BuildSt) : DRes BuildSt :=
  if len = 0 then .ok st
  else if 16 < len then .err .MalformedSrcData
  else if len ≤ tableBits then
    if nextCodeOf st tableBits len ≤ st.start len ∨ 2 ^ tableBits < nextCodeOf st tableBits len
    then .err .MalformedSrcData
    else if char < 65536 then
      .ok { st with
        table := fillF st.table (st.start len) (nextCodeOf st tableBits len) char,
        start := setF st.start len (nextCodeOf st tableBits len) }
    else .panic
  else
    buildSymTail char len (nextCodeOf st tableBits len)
      (treeSteps tableBits (len - tableBits) st
        (TablePointer.Table (st.start len >>> (16 - tableBits))) (st.start len))

/-- The main symbol loop of `build_huffman_table` over symbols
`char, char+1, …` (`r` of them). -/
def buildFrom (bl : Nat → Nat) (tableBits : Nat) : Nat → Nat → BuildSt → DRes BuildSt
  | _, 0, st => .ok st
  | char, r + 1, st => do
    let st ← buildSym tableBits char (bl char) st
    buildFrom bl tableBits (char + 1) r st

/-- The in-place shift `start[idx] >>= extended_bits` for `idx` in
`1..=table_bits` (lib.rs lines 490-493). -/
def shiftedStart (tableBits : Nat) (count : Nat → Nat) : Nat → Nat := fun i =>
  if 1 ≤ i ∧ i ≤ tableBits then startAt count i >>> (16 - tableBits)
  else startAt count i

/-- Zeroing of the unused table entries (lib.rs lines 500-506). -/
def zeroedTable (tableBits : Nat) (count table : Nat → Nat) : Nat → Nat :=
  if startAt count (tableBits + 1) >>> (16 - tableBits) ≠ 0 ∧
      startAt count (tableBits + 1) >>> (16 - tableBits) < 2 ^ tableBits then
    fillF table (startAt count (tableBits + 1) >>> (16 - tableBits)) (2 ^ tableBits) 0
  else table

/-- The `BuildSt` entering `build_huffman_table`'s main symbol loop. -/
def buildInitSt (numSymbols tableBits : Nat) (count table left right : Nat → Nat) : BuildSt where
  table := zeroedTable tableBits count table
  left := left
  right := right
  start := shiftedStart tableBits count
  nextAvail := numSymbols

/-- `build_huffman_table` (lib.rs lines 454-600). Returns the new
`(table, left, right)` triple. -/
def buildHuffmanTable (numSymbols : Nat) (bl : Nat → Nat) (tableBits : Nat)
    (table left right : Nat → Nat) : DRes ((Nat → Nat) × (Nat → Nat) × (Nat → Nat)) :=
  if 16 < tableBits then .panic
  else do
    let count ← tallyGo bl numSymbols 0 (fun _ => 0)
    if startAt count 17 ≠ 0 then .err .MalformedSrcData
    else do
      let stF ← buildFrom bl tableBits 0 numSymbols
        (buildInitSt numSymbols tableBits count table left right)
      pure (stF.table, stF.left, stF.right)

/-! ## Length-array decoding (`read_pt_len`, lib.rs lines 187-242) -/

/-- The unary extension of a 3-bit code length equal to 7 (lib.rs lines
204-214): keep popping bits while they are 1, adding 1 each time. `acc` is a
`u8`, so incrementing past 255 is an overflow panic. -/
def unaryExtend : Nat → CodeIterState → Nat → DRes (Nat × CodeIterState)
  | 0, _, _ => .panic
  | fuel + 1, st, acc => do
    let r ← popBits st 1
    if r.1.getD 0 false then
      if acc = 255 then .panic else unaryExtend fuel r.2 (acc + 1)
    else
      pure (acc, r.2)

/-- The `while idx < count && idx < NPT` loop of `read_pt_len` (lib.rs lines
199-225). Returns the state and the final `idx`. -/
def readPtLenLoop : Nat → CodeIterState → Nat → Bool → Nat → DRes (CodeIterState × Nat)
  | 0, _, _, _, _ => .panic
  | fuel + 1, st, count, extra, idx =>
    if idx < count ∧ idx < NPT then do
      let r ← popBits st 3
      let p ← if loadBE r.1 = 7 then unaryExtend (r.2.src.length + 1) r.2 7
              else pure (loadBE r.1, r.2)
      if extra = true ∧ idx + 1 = 3 then do
        let r2 ← popBits { p.2 with ptLen := setF p.2.ptLen idx p.1 } 2
        readPtLenLoop fuel
          { r2.2 with ptLen := fillF r2.2.ptLen (idx + 1) (idx + 1 + loadBE r2.1) 0 }
          count extra (idx + 1 + loadBE r2.1)
      else
        readPtLenLoop fuel { p.2 with ptLen := setF p.2.ptLen idx p.1 } count extra (idx + 1)
    else
      .ok (st, idx)

/-- `CodeIterator::read_pt_len` (lib.rs lines 187-242). -/
def readPtLen (st : CodeIterState) (numSymbols numBits : Nat) (extra : Bool) :
    DRes CodeIterState :=
  if numSymbols ≤ NPT then do
    let r ← popBits st numBits
    if loadBE r.1 = 0 then do
      let r2 ← popBits r.2 numBits
      pure { r2.2 with
        ptTable := fun _ => loadBE r2.1,
        ptLen := fillF r2.2.ptLen 0 numSymbols 0 }
    else do
      let p ← readPtLenLoop (NPT + 1) r.2 (loadBE r.1) extra 0
      if numSymbols < p.2 then .err .MalformedSrcData
      else do
        let t ← buildHuffmanTable numSymbols (fillF p.1.ptLen p.2 numSymbols 0)
          PTABLE_BITSIZE p.1.ptTable p.1.left p.1.right
        pure { p.1 with
          ptLen := fillF p.1.ptLen p.2 numSymbols 0,
          ptTable := t.1, left := t.2.1, right := t.2.2 }
  else .panic

/-! ## Secondary-tree symbol decoding -/

/-- The shared peek-driven left/right tree walk used to decode one symbol
whose fixed-table entry is not a leaf (lib.rs lines 297-309, 385-399,
656-675): starting after `maskIdx` peeked bits with non-leaf value `sym`,
follow `right`/`left` on each further peeked bit until the value drops below
`bound`. The walk only peeks, never advancing the cursor. `walkChild` is the
child selected by the peeked bit at `maskIdx`. -/
def walkChild (st : CodeIterState) (maskIdx sym : Nat) : Nat :=
  if st.src.getD (st.srcIndex + maskIdx) false then st.right sym else st.left sym

/-- The walk loop itself; see `walkChild`. -/
def treeWalk (st : CodeIterState) (bound : Nat) : Nat → Nat → Nat → DRes Nat
  | 0, _, _ => .panic
  | fuel + 1, maskIdx, sym =>
    if st.srcIndex + (maskIdx + 1) ≤ st.src.length then
      if walkChild st maskIdx sym < bound then .ok (walkChild st maskIdx sym)
      else treeWalk st bound fuel (maskIdx + 1) (walkChild st maskIdx sym)
    else .err .MalformedSrcData

/-- Decode one symbol through `pt_table` plus the tree, then advance the
cursor by the symbol's own code length `pt_len[symbol]` (lib.rs lines 291-313
with `bound = NT`, lines 377-401 with `bound = MAXNP`). -/
def decodePtSymbol (st : CodeIterState) (bound : Nat) : DRes (Nat × CodeIterState) := do
  let bits ← peekBits st PTABLE_BITSIZE
  let v0 := st.ptTable (loadBE bits)
  let v ← if v0 < bound then pure v0
          else treeWalk st bound (st.src.length + 1) PTABLE_BITSIZE v0
  let r ← popBits st (st.ptLen v)
  pure (v, r.2)

/-- `CodeIterator::decode_position` (lib.rs lines 376-410): decode the
Position Set symbol, then, for a value above 1, append `val - 1` raw suffix
bits below the implicit leading 1. -/
def decodePosition (st : CodeIterState) : DRes (Nat × CodeIterState) := do
  let p ← decodePtSymbol st MAXNP
  if p.1 ≤ 1 then pure p
  else do
    let r ← popBits p.2 (p.1 - 1)
    pure ((1 <<< (p.1 - 1)) + loadBE r.1, r.2)

/-! ## Char&Length length-array decoding (`read_c_len`, lib.rs lines 277-359) -/

/-- Interpretation of one decoded Extra Set symbol in `read_c_len` (lib.rs
lines 315-344): `0` is a single zero length; `1` is a 4-bit-counted zero run
of `value + 3`; `2` is a 9-bit-counted zero run of `value + 20`; anything
else stores code length `symbol - 2`. Returns the new state and index. -/
def interpretCSymbol (st : CodeIterState) (idx symbol : Nat) :
    DRes (CodeIterState × Nat) :=
  if symbol ≤ 2 then do
    let p ← if symbol = 0 then pure (1, st)
            else if symbol = 1 then do
              let r ← popBits st 4
              pure (loadBE r.1 + 3, r.2)
            else do
              let r ← popBits st CBIT
              pure (loadBE r.1 + 20, r.2)
    if NC < idx + p.1 then .err .MalformedSrcData
    else .ok ({ p.2 with cLen := fillF p.2.cLen idx (idx + p.1) 0 }, idx + p.1)
  else
    if NC ≤ idx then .err .MalformedSrcData
    else .ok ({ st with cLen := setF st.cLen idx (symbol - 2) }, idx + 1)

/-- The `while idx < count` loop of `read_c_len` (lib.rs lines 289-345). -/
def readCLenLoop : Nat → CodeIterState → Nat → Nat → DRes (CodeIterState × Nat)
  | 0, _, _, _ => .panic
  | fuel + 1, st, count, idx =>
    if idx < count then do
      let p ← decodePtSymbol st NT
      let q ← interpretCSymbol p.2 idx p.1
      readCLenLoop fuel q.1 count q.2
    else .ok (st, idx)

/-- `CodeIterator::read_c_len` (lib.rs lines 277-359). -/
def readCLen (st : CodeIterState) : DRes CodeIterState := do
  let r ← popBits st CBIT
  if loadBE r.1 = 0 then do
    let r2 ← popBits r.2 CBIT
    pure { r2.2 with cLen := fun _ => 0, cTable := fun _ => loadBE r2.1 }
  else do
    let p ← readCLenLoop (loadBE r.1 + 1) r.2 (loadBE r.1) 0
    let t ← buildHuffmanTable NC (fillF p.1.cLen p.2 NC 0) CTABLE_BITSIZE
      p.1.cTable p.1.left p.1.right
    pure { p.1 with
      cLen := fillF p.1.cLen p.2 NC 0,
      cTable := t.1, left := t.2.1, right := t.2.2 }

/-! ## The iterator (`CodeIterator::next`, lib.rs lines 607-701) -/

/-- Block (re)initialization at the head of `next` (lib.rs lines 611-640):
when `remaining_block_size` is 0, read the 16-bit block symbol count and
rebuild the Extra Set, Char&Length Set and Position Set tables in order. -/
def blockInit (st : CodeIterState) : DRes CodeIterState :=
  if st.remainingBlockSize = 0 then do
    let r ← popBits st 16
    let st1 ← readPtLen { r.2 with remainingBlockSize := loadBE r.1 } NT TBIT true
    let st2 ← readCLen st1
    readPtLen st2 MAXNP st2.pBit false
  else pure st

/-- The back-reference length for a Char&Length value:
`decode_idx - (0x100 - 3)` (lib.rs line 688). -/
def strPointerLen (decodeIdx : Nat) : Nat := decodeIdx - (256 - 3)

/-- Conversion of the decoded Char&Length value `v` into a `CodeSymbol`
(lib.rs lines 677-700): advance the cursor by the symbol's code length
`c_len[v]`, then emit a literal for `v < 256` or decode the position and
emit a back-reference of length `strPointerLen v` otherwise. -/
def emitSymbol (v : Nat) (st : CodeIterState) : DRes (CodeSymbol × CodeIterState) := do
  let r ← popBits st (st.cLen v)
  if v < 256 then
    pure (.OrigChar v, r.2)
  else do
    let p ← decodePosition r.2
    pure (.StrPointer p.1 (strPointerLen v), p.2)

/-- The symbol-production tail of `next` (lib.rs lines 643-700), after block
initialization and the `remaining_block_size` decrement. -/
def nextSymbolCore (st : CodeIterState) : DRes (CodeSymbol × CodeIterState) := do
  let bits ← peekBits st CTABLE_BITSIZE
  let decodeIdx ← if st.cTable (loadBE bits) < NC then pure (st.cTable (loadBE bits))
                  else treeWalk st NC (st.src.length + 1) CTABLE_BITSIZE (st.cTable (loadBE bits))
  emitSymbol decodeIdx st

/-- `CodeIterator::next` (lib.rs lines 607-701). The bare
`self.remaining_block_size -= 1` (line 641) underflows when the block's
16-bit symbol count was 0; with debug assertions that is a panic. -/
def next (st : CodeIterState) : DRes (CodeSymbol × CodeIterState) := do
  let st ← blockInit st
  if st.remainingBlockSize = 0 then .panic
  else nextSymbolCore { st with remainingBlockSize := st.remainingBlockSize - 1 }

/-! ## The output assembler (`decompress_into_with_algo`, lib.rs lines 20-83) -/

/-- The byte-at-a-time back-reference copy (lib.rs lines 64-70):
`for src in start..start+len { dst[dst_idx] = dst[src]; dst_idx += 1;
if dst_idx == dst.len() { break; } }`, with out-of-bounds indices a panic. -/
def copyStr : List Nat → Nat → Nat → Nat → DRes (List Nat × Nat)
  | dst, dstIdx, _, 0 => .ok (dst, dstIdx)
  | dst, dstIdx, readIdx, len + 1 =>
    if readIdx < dst.length ∧ dstIdx < dst.length then
      if dstIdx + 1 = dst.length then .ok (dst.set dstIdx (dst.getD readIdx 0), dstIdx + 1)
      else copyStr (dst.set dstIdx (dst.getD readIdx 0)) (dstIdx + 1) (readIdx + 1) len
    else .panic

/-- Application of one decoded `CodeSymbol` to the output buffer (lib.rs
lines 47-72): write a literal, or copy a back-reference starting at
`dst_idx - offset - 1` (checked subtraction, `MalformedSrcData` on
underflow). -/
def applySymbol (dst : List Nat) (dstIdx : Nat) : CodeSymbol → DRes (List Nat × Nat)
  | .OrigChar c =>
    if dstIdx < dst.length then .ok (dst.set dstIdx c, dstIdx + 1) else .panic
  | .StrPointer offset len =>
    if offset + 1 ≤ dstIdx then copyStr dst dstIdx (dstIdx - offset - 1) len
    else .err .MalformedSrcData

/-- The `for result in CodeIterator::new(..)` loop of
`decompress_into_with_algo` (lib.rs lines 45-81): produce a symbol, apply it,
stop as soon as the destination is full. -/
def runLoop : Nat → CodeIterState → List Nat → Nat → DRes (List Nat)
  | 0, _, _, _ => .panic
  | fuel + 1, st, dst, dstIdx => do
    let s ← next st
    let p ← applySymbol dst dstIdx s.1
    if p.2 = p.1.length then .ok p.1
    else runLoop fuel s.2 p.1 p.2

/-- The output-assembler loop run on an explicitly given symbol sequence
instead of the bitstream iterator; used to state the synthetic two-symbol
overlapping-copy example. -/
def runSymbols : List CodeSymbol → List Nat → Nat → DRes (List Nat)
  | [], dst, _ => .ok dst
  | s :: rest, dst, dstIdx => do
    let p ← applySymbol dst dstIdx s
    if p.2 = p.1.length then .ok p.1
    else runSymbols rest p.1 p.2

/-- `decompress_into_with_algo` (lib.rs lines 20-83) as a function of the
Position Set count-field width `pBit` (the only thing the algorithm variant
determines). The returned value is the final contents of `dst`. -/
def decompressWithPBit (src dst : List Nat) (pBit : Nat) : DRes (List Nat) :=
  if src.length < 8 then .err .InvalidSrcSize
  else if src.length < leU32 (src.getD 0 0) (src.getD 1 0) (src.getD 2 0) (src.getD 3 0) then
    .err .InvalidSrcSize
  else if leU32 (src.getD 4 0) (src.getD 5 0) (src.getD 6 0) (src.getD 7 0) = 0 then
    .ok dst
  else if leU32 (src.getD 4 0) (src.getD 5 0) (src.getD 6 0) (src.getD 7 0) ≠ dst.length then
    .err .InvalidDstSize
  else
    runLoop (dst.length + 1) (initState (src.drop 8) pBit) dst 0

/-- `decompress_into_with_algo` (lib.rs lines 20-83). -/
def decompress_into_with_algo (src dst : List Nat) (algo : DecompressionAlgorithm) :
    DRes (List Nat) :=
  decompressWithPBit src dst (pBitOf algo)

/-! ## Concrete data used in witnesses and counterexamples -/

/-- A crafted compressed input: valid header (`compressed_size = 15`,
`orig_size = 1`) whose first block declares a 16-bit symbol count of 0 and
degenerate (count-0) tables for all three alphabets. -/
def zeroBlockSrc : List Nat := [15, 0, 0, 0, 1, 0, 0, 0, 0, 0, 0, 0, 0, 0, 0]

/-- The all-zero function-modelled array. -/
def zeroArr : Nat → Nat := fun _ => 0

/-- The complete code-length array `[1, 1]` over 2 symbols. -/
def lensPair : Nat → Nat := fun i => if i < 2 then 1 else 0

/-- The incomplete code-length array `[1, 0]` over 2 symbols. -/
def lensHalf : Nat → Nat := fun i => if i = 0 then 1 else 0

/-- A `left` array holding a retained node id 700 at index 900, as the shared
arena does after a Char&Length build allocated secondary-tree nodes. -/
def staleLeft : Nat → Nat := fun i => if i = 900 then 700 else 0

/-- A decoder state mid-block (`remaining_block_size = 1`) whose degenerate
constant `c_table` decodes every 12-bit window to literal 65 with code
length 0. -/
def stLit : CodeIterState where
  src := List.replicate 12 false
  srcIndex := 0
  remainingBlockSize := 1
  left := zeroArr
  right := zeroArr
  cLen := zeroArr
  ptLen := zeroArr
  cTable := fun _ => 65
  ptTable := zeroArr
  pBit := 4

/-- A decoder state whose degenerate constant `c_table` decodes every 12-bit
window to Char&Length value 300 (a back-reference) with code length 0, and
whose constant `pt_table` decodes the position symbol 0 (distance 0). -/
def stBR : CodeIterState where
  src := List.replicate 12 false
  srcIndex := 0
  remainingBlockSize := 1
  left := zeroArr
  right := zeroArr
  cLen := zeroArr
  ptLen := zeroArr
  cTable := fun _ => 300
  ptTable := zeroArr
  pBit := 4

/-- A decoder state whose constant `pt_table` decodes every 8-bit window to
Position Set symbol 5 with code length 0, over twelve zero bits. -/
def stP : CodeIterState where
  src := List.replicate 12 false
  srcIndex := 0
  remainingBlockSize := 1
  left := zeroArr
  right := zeroArr
  cLen := zeroArr
  ptLen := zeroArr
  cTable := zeroArr
  ptTable := fun _ => 5
  pBit := 4

/-- `stP` after consuming the four raw suffix bits of position symbol 5. -/
def stP4 : CodeIterState := { stP with srcIndex := 4 }

/-- A decoder state for `read_c_len`: nine bits declaring a Char&Length
count of 1, eight further zero bits, and a constant Extra Set `pt_table`
decoding every window to symbol 3 (one entry of code length 1) with code
length 0. -/
def stC : CodeIterState where
  src := List.replicate 8 false ++ (true :: List.replicate 8 false)
  srcIndex := 0
  remainingBlockSize := 1
  left := zeroArr
  right := zeroArr
  cLen := zeroArr
  ptLen := zeroArr
  cTable := zeroArr
  ptTable := fun _ => 3
  pBit := 4

/-- First projection of a built table triple (0 outside `ok`). -/
def tbl1 (res : DRes ((Nat → Nat) × (Nat → Nat) × (Nat → Nat))) : Nat → Nat :=
  match res with
  | .ok t => t.1
  | _ => fun _ => 0

/-- Second projection (`left`) of a built table triple (0 outside `ok`). -/
def tbl2 (res : DRes ((Nat → Nat) × (Nat → Nat) × (Nat → Nat))) : Nat → Nat :=
  match res with
  | .ok t => t.2.1
  | _ => fun _ => 0

/-- Third projection (`right`) of a built table triple (0 outside `ok`). -/
def tbl3 (res : DRes ((Nat → Nat) × (Nat → Nat) × (Nat → Nat))) : Nat → Nat :=
  match res with
  | .ok t => t.2.2
  | _ => fun _ => 0

/-- Every entry of a function-modelled `u16` array is below the shared
secondary-tree arena bound `2 * NC - 1 = 1019`. -/
def ArrOk (f : Nat → Nat) : Prop := ∀ i, f i < 2 * NC - 1

/-- All three arrays of a `BuildSt` satisfy the arena bound. -/
def StOk (st : BuildSt) : Prop := ArrOk st.table ∧ ArrOk st.left ∧ ArrOk st.right

/-! ## Basic lemmas -/

@[simp] theorem DRes.bind_ok {α β : Type} (a : α) (f : α → DRes β) :
    DRes.bind (.ok a) f = f a := rfl

@[simp] theorem DRes.bind_err {α β : Type} (e : DecompressError) (f : α → DRes β) :
    DRes.bind (.err e) f = .err e := rfl

@[simp] theorem DRes.bind_panic {α β : Type} (f : α → DRes β) :
    DRes.bind (.panic : DRes α) f = .panic := rfl

@[simp] theorem DRes.monad_bind {α β : Type} (x : DRes α) (f : α → DRes β) :
    x >>= f = DRes.bind x f := rfl

@[simp] theorem DRes.monad_pure {α : Type} (a : α) : (pure a : DRes α) = .ok a := rfl

/-- The secondary-tree walk only ever succeeds with a value below its
bound — that is the loop's exit condition. -/
theorem treeWalk_lt (st : CodeIterState) (bound : Nat) :
    ∀ fuel maskIdx sym v, treeWalk st bound fuel maskIdx sym = .ok v → v < bound := by
  intro fuel
  induction fuel with
  | zero => intro maskIdx sym v h; simp [treeWalk] at h
  | succ n ih =>
    intro maskIdx sym v h
    unfold treeWalk at h
    split at h
    · split at h
      · cases h; assumption
      · exact ih _ _ _ h
    · simp at h

/-- The byte-at-a-time copy never changes the destination length. -/
theorem copyStr_length :
    ∀ len dst dstIdx readIdx p, copyStr dst dstIdx readIdx len = .ok p →
      p.1.length = dst.length := by
  intro len
  induction len with
  | zero => intro dst dstIdx readIdx p h; cases h; rfl
  | succ n ih =>
    intro dst dstIdx readIdx p h
    unfold copyStr at h
    split at h
    · split at h
      · cases h; simp
      · have := ih _ _ _ _ h
        simpa using this
    · simp at h

/-- A successful byte-at-a-time copy advances the write index to exactly
`min (dstIdx + len) dst.length`: the full requested length, or cut off at
the end of the destination. -/
theorem copyStr_min :
    ∀ len dst dstIdx readIdx p, dstIdx ≤ dst.length →
      copyStr dst dstIdx readIdx len = .ok p →
      p.2 = min (dstIdx + len) dst.length := by
  intro len
  induction len with
  | zero => intro dst dstIdx readIdx p hle h; cases h; simpa using hle
  | succ n ih =>
    intro dst dstIdx readIdx p hle h
    unfold copyStr at h
    split at h
    · rename_i hg
      split at h
      · rename_i hfull
        cases h
        simp only []
        have hset : (dst.set dstIdx (dst.getD readIdx 0)).length = dst.length :=
          List.length_set ..
        omega
      · rename_i hfull
        have hset : (dst.set dstIdx (dst.getD readIdx 0)).length = dst.length :=
          List.length_set ..
        have := ih (dst.set dstIdx (dst.getD readIdx 0)) (dstIdx + 1) (readIdx + 1) p
          (by omega) h
        omega
    · simp at h

/-- A back-reference emitted by `emitSymbol` for a Char&Length value below
`NC` has length between 3 and 256. -/
theorem emitSymbol_backref (v : Nat) (st : CodeIterState) (s : CodeSymbol × CodeIterState)
    (hv : v < NC) (h : emitSymbol v st = .ok s) :
    ∀ offset len, s.1 = CodeSymbol.StrPointer offset len → 3 ≤ len ∧ len ≤ 256 := by
  intro offset len hsym
  unfold emitSymbol at h
  cases hpp : popBits st (st.cLen v) with
  | ok r =>
    rw [hpp] at h
    simp only [DRes.monad_bind, DRes.bind_ok] at h
    by_cases h256 : v < 256
    · rw [if_pos h256] at h
      simp only [DRes.monad_pure] at h
      cases h
      simp at hsym
    · rw [if_neg h256] at h
      cases hdp : decodePosition r.2 with
      | ok q =>
        rw [hdp] at h
        simp only [DRes.monad_bind, DRes.bind_ok, DRes.monad_pure] at h
        cases h
        simp only [CodeSymbol.StrPointer.injEq] at hsym
        simp only [strPointerLen] at hsym
        have hv510 : v < 510 := hv
        omega
      | err e => rw [hdp] at h; simp [DRes.bind] at h
      | panic => rw [hdp] at h; simp [DRes.bind] at h
  | err e => rw [hpp] at h; simp [DRes.bind] at h
  | panic => rw [hpp] at h; simp [DRes.bind] at h

/-- Applying one symbol never changes the destination length. -/
theorem applySymbol_length (dst : List Nat) (dstIdx : Nat) (sym : CodeSymbol)
    (p : List Nat × Nat) (h : applySymbol dst dstIdx sym = .ok p) :
    p.1.length = dst.length := by
  cases sym with
  | OrigChar c =>
    simp only [applySymbol] at h
    split at h
    · cases h; simp
    · simp at h
  | StrPointer offset len =>
    simp only [applySymbol] at h
    split at h
    · exact copyStr_length _ _ _ _ _ h
    · simp at h

/-- The decode loop succeeds only by filling the destination: an `ok` result
has exactly the original destination length, and arises only from the
`dst_idx == dst.len()` exit. -/
theorem runLoop_ok_length :
    ∀ fuel st dst dstIdx out, runLoop fuel st dst dstIdx = .ok out →
      out.length = dst.length := by
  intro fuel
  induction fuel with
  | zero => intro st dst dstIdx out h; simp [runLoop] at h
  | succ n ih =>
    intro st dst dstIdx out h
    unfold runLoop at h
    cases hnx : next st with
    | ok s =>
      rw [hnx] at h
      simp only [DRes.monad_bind, DRes.bind_ok] at h
      cases hap : applySymbol dst dstIdx s.1 with
      | ok p =>
        rw [hap] at h
        simp only [DRes.bind_ok] at h
        split at h
        · cases h
          exact applySymbol_length _ _ _ _ hap
        · have := ih _ _ _ _ h
          rw [this]
          exact applySymbol_length _ _ _ _ hap
      | err e => rw [hap] at h; simp [DRes.bind] at h
      | panic => rw [hap] at h; simp [DRes.bind] at h
    | err e => rw [hnx] at h; simp [DRes.bind] at h
    | panic => rw [hnx] at h; simp [DRes.bind] at h

/-- A successful `pop_bits` yields the peeked window and advances the cursor
by exactly `n` bits, changing nothing else. -/
theorem popBits_state (st : CodeIterState) (n : Nat) (r : List Bool × CodeIterState)
    (h : popBits st n = .ok r) :
    r.2 = { st with srcIndex := st.srcIndex + n } ∧
    r.1 = (st.src.drop st.srcIndex).take n := by
  unfold popBits at h
  split at h
  · cases h; exact ⟨rfl, rfl⟩
  · simp at h

/-- A successfully decoded Position/Extra Set symbol is below the alphabet
bound, and decoding it consumes exactly its own code length
`pt_len[symbol]` in bits. -/
theorem decodePtSymbol_ok (st : CodeIterState) (bound v : Nat) (st1 : CodeIterState)
    (h : decodePtSymbol st bound = .ok (v, st1)) :
    v < bound ∧ st1 = { st with srcIndex := st.srcIndex + st.ptLen v } := by
  unfold decodePtSymbol at h
  cases hpk : peekBits st PTABLE_BITSIZE with
  | ok bits =>
    rw [hpk] at h
    simp only [DRes.monad_bind, DRes.bind_ok] at h
    by_cases hb : st.ptTable (loadBE bits) < bound
    · rw [if_pos hb] at h
      simp only [DRes.monad_bind, DRes.monad_pure, DRes.bind_ok] at h
      cases hpp : popBits st (st.ptLen (st.ptTable (loadBE bits))) with
      | ok r =>
        rw [hpp] at h
        simp only [DRes.bind_ok] at h
        cases h
        exact ⟨hb, (popBits_state _ _ _ hpp).1⟩
      | err e => rw [hpp] at h; simp [DRes.bind] at h
      | panic => rw [hpp] at h; simp [DRes.bind] at h
    · rw [if_neg hb] at h
      cases hw : treeWalk st bound (st.src.length + 1) PTABLE_BITSIZE
          (st.ptTable (loadBE bits)) with
      | ok w =>
        rw [hw] at h
        simp only [DRes.monad_bind, DRes.bind_ok] at h
        cases hpp : popBits st (st.ptLen w) with
        | ok r =>
          rw [hpp] at h
          simp only [DRes.bind_ok, DRes.monad_pure] at h
          cases h
          exact ⟨treeWalk_lt _ _ _ _ _ _ hw, (popBits_state _ _ _ hpp).1⟩
        | err e => rw [hpp] at h; simp [DRes.bind] at h
        | panic => rw [hpp] at h; simp [DRes.bind] at h
      | err e => rw [hw] at h; simp [DRes.bind] at h
      | panic => rw [hw] at h; simp [DRes.bind] at h
  | err e => rw [hpk] at h; simp [DRes.bind] at h
  | panic => rw [hpk] at h; simp [DRes.bind] at h

theorem NC_eq : NC = 510 := rfl

/-- Interpreting one Extra Set symbol never pushes the logical index past
`NC = 510`: the zero-run and single-entry branches both bound-check first. -/
theorem interpretCSymbol_le (st : CodeIterState) (idx symbol : Nat)
    (q : CodeIterState × Nat) (h : interpretCSymbol st idx symbol = .ok q) :
    q.2 ≤ NC := by
  unfold interpretCSymbol at h
  split at h
  · by_cases h0 : symbol = 0
    · rw [if_pos h0] at h
      simp only [DRes.monad_bind, DRes.monad_pure, DRes.bind_ok] at h
      split at h
      · simp at h
      · cases h; rename_i hg; omega
    · rw [if_neg h0] at h
      by_cases h1 : symbol = 1
      · rw [if_pos h1] at h
        cases hpp : popBits st 4 with
        | ok r =>
          rw [hpp] at h
          simp only [DRes.monad_bind, DRes.monad_pure, DRes.bind_ok] at h
          split at h
          · simp at h
          · cases h; rename_i hg; omega
        | err e => rw [hpp] at h; simp [DRes.bind] at h
        | panic => rw [hpp] at h; simp [DRes.bind] at h
      · rw [if_neg h1] at h
        cases hpp : popBits st CBIT with
        | ok r =>
          rw [hpp] at h
          simp only [DRes.monad_bind, DRes.monad_pure, DRes.bind_ok] at h
          split at h
          · simp at h
          · cases h; rename_i hg; omega
        | err e => rw [hpp] at h; simp [DRes.bind] at h
        | panic => rw [hpp] at h; simp [DRes.bind] at h
  · split at h
    · simp at h
    · cases h; rename_i hg; omega

/-- The `read_c_len` entry loop leaves the logical index at or below `NC`. -/
theorem readCLenLoop_le :
    ∀ fuel st count idx p, readCLenLoop fuel st count idx = .ok p → idx ≤ NC →
      p.2 ≤ NC := by
  intro fuel
  induction fuel with
  | zero => intro st count idx p h hle; simp [readCLenLoop] at h
  | succ n ih =>
    intro st count idx p h hle
    unfold readCLenLoop at h
    split at h
    · cases hds : decodePtSymbol st NT with
      | ok s =>
        rw [hds] at h
        simp only [DRes.monad_bind, DRes.bind_ok] at h
        cases hin : interpretCSymbol s.2 idx s.1 with
        | ok q =>
          rw [hin] at h
          simp only [DRes.bind_ok] at h
          exact ih _ _ _ _ h (interpretCSymbol_le _ _ _ _ hin)
        | err e => rw [hin] at h; simp [DRes.bind] at h
        | panic => rw [hin] at h; simp [DRes.bind] at h
      | err e => rw [hds] at h; simp [DRes.bind] at h
      | panic => rw [hds] at h; simp [DRes.bind] at h
    · cases h; exact hle

/-- The `read_c_len` entry loop only exits once the logical index has
reached the declared count. -/
theorem readCLenLoop_ge :
    ∀ fuel st count idx p, readCLenLoop fuel st count idx = .ok p → count ≤ p.2 := by
  intro fuel
  induction fuel with
  | zero => intro st count idx p h; simp [readCLenLoop] at h
  | succ n ih =>
    intro st count idx p h
    unfold readCLenLoop at h
    split at h
    · cases hds : decodePtSymbol st NT with
      | ok s =>
        rw [hds] at h
        simp only [DRes.monad_bind, DRes.bind_ok] at h
        cases hin : interpretCSymbol s.2 idx s.1 with
        | ok q =>
          rw [hin] at h
          simp only [DRes.bind_ok] at h
          exact ih _ _ _ _ h
        | err e => rw [hin] at h; simp [DRes.bind] at h
        | panic => rw [hin] at h; simp [DRes.bind] at h
      | err e => rw [hds] at h; simp [DRes.bind] at h
      | panic => rw [hds] at h; simp [DRes.bind] at h
    · cases h; rename_i hg; omega

/-- The tally pass fails with `MalformedSrcData` whenever some scanned
length exceeds 16. -/
theorem tallyGo_err (bl : Nat → Nat) :
    ∀ r i acc, (∃ j, j < r ∧ 16 < bl (i + j)) →
      tallyGo bl r i acc = .err .MalformedSrcData := by
  intro r
  induction r with
  | zero => intro i acc h; obtain ⟨j, hj, _⟩ := h; omega
  | succ n ih =>
    intro i acc h
    unfold tallyGo
    by_cases hb : 16 < bl i
    · rw [if_pos hb]
    · rw [if_neg hb]
      obtain ⟨j, hj, hbad⟩ := h
      cases j with
      | zero => exact absurd hbad (by simpa using hb)
      | succ k =>
        refine ih (i + 1) _ ⟨k, by omega, ?_⟩
        have : i + 1 + k = i + (k + 1) := by omega
        rw [this]
        exact hbad

theorem setF_lt (f : Nat → Nat) (i v : Nat) (hf : ArrOk f) (hv : v < 2 * NC - 1) :
    ArrOk (setF f i v) := by
  intro j
  unfold setF
  split
  · exact hv
  · exact hf j

theorem fillF_lt (f : Nat → Nat) (lo hi v : Nat) (hf : ArrOk f) (hv : v < 2 * NC - 1) :
    ArrOk (fillF f lo hi v) := by
  intro j
  unfold fillF
  split
  · exact hv
  · exact hf j

theorem tpGet_lt (st : BuildSt) (tp : TablePointer) (hst : StOk st) :
    tpGet st tp < 2 * NC - 1 := by
  cases tp with
  | Table i => exact hst.1 i
  | Left i => exact hst.2.1 i
  | Right i => exact hst.2.2 i

theorem tpSet_ok (st : BuildSt) (tp : TablePointer) (v : Nat) (hst : StOk st)
    (hv : v < 2 * NC - 1) : StOk (tpSet st tp v) := by
  cases tp with
  | Table i => exact ⟨setF_lt _ _ _ hst.1 hv, hst.2.1, hst.2.2⟩
  | Left i => exact ⟨hst.1, setF_lt _ _ _ hst.2.1 hv, hst.2.2⟩
  | Right i => exact ⟨hst.1, hst.2.1, setF_lt _ _ _ hst.2.2 hv⟩

theorem allocStep_ok (st : BuildSt) (tp : TablePointer) (hst : StOk st) :
    StOk (allocStep st tp) := by
  unfold allocStep
  split
  · rename_i hg
    have h1 : StOk (tpSet st tp st.nextAvail) := tpSet_ok _ _ _ hst hg.2
    exact ⟨h1.1, setF_lt _ _ _ h1.2.1 (by decide), setF_lt _ _ _ h1.2.2 (by decide)⟩
  · exact hst

theorem treeSteps_ok (tableBits : Nat) :
    ∀ steps st tp bitstring, StOk st →
      StOk (treeSteps tableBits steps st tp bitstring).1 := by
  intro steps
  induction steps with
  | zero => intro st tp bitstring hst; exact hst
  | succ n ih =>
    intro st tp bitstring hst
    exact ih _ _ _ (allocStep_ok _ _ hst)

theorem buildSym_ok (tableBits char len : Nat) (st st2 : BuildSt)
    (hst : StOk st) (hchar : char < 2 * NC - 1)
    (h : buildSym tableBits char len st = .ok st2) : StOk st2 := by
  unfold buildSym at h
  split at h
  · cases h; exact hst
  · split at h
    · simp at h
    · split at h
      · split at h
        · simp at h
        · split at h
          · cases h
            exact ⟨fillF_lt _ _ _ _ hst.1 hchar, hst.2.1, hst.2.2⟩
          · simp at h
      · unfold buildSymTail at h
        split at h
        · cases h
          have hwalk := treeSteps_ok tableBits (len - tableBits) st
            (TablePointer.Table (st.start len >>> (16 - tableBits))) (st.start len) hst
          exact tpSet_ok _ _ _ hwalk hchar
        · simp at h

theorem buildFrom_ok (bl : Nat → Nat) (tableBits : Nat) :
    ∀ r char st st2, char + r ≤ 2 * NC - 1 → StOk st →
      buildFrom bl tableBits char r st = .ok st2 → StOk st2 := by
  intro r
  induction r with
  | zero => intro char st st2 hr hst h; cases h; exact hst
  | succ n ih =>
    intro char st st2 hr hst h
    unfold buildFrom at h
    cases hbs : buildSym tableBits char (bl char) st with
    | ok st1 =>
      rw [hbs] at h
      simp only [DRes.monad_bind, DRes.bind_ok] at h
      exact ih (char + 1) st1 st2 (by omega)
        (buildSym_ok _ _ _ _ _ hst (by omega) hbs) h
    | err e => rw [hbs] at h; simp [DRes.bind] at h
    | panic => rw [hbs] at h; simp [DRes.bind] at h

/-! ## Claim theorems -/

/-- Claim C1, failing input: on a well-formed header whose first block
declares a 16-bit symbol count of 0 (with degenerate count-0 tables for all
three alphabets), `decompress_into_with_algo` reaches
`self.remaining_block_size -= 1` with the counter at 0, an arithmetic
underflow — a panic under debug assertions, a wrap to `usize::MAX` in
release — under either algorithm variant. This refutes the claim that the
per-symbol decrement stays in range for a zero symbol count. -/
theorem decompress_block_size_zero_underflow_panics :
    decompress_into_with_algo zeroBlockSrc [0] .UefiDecompress = .panic ∧
    decompress_into_with_algo zeroBlockSrc [0] .TianoDecompress = .panic := by
  constructor <;> rfl

/-- Claim C9: the two algorithm variants are the same decompression function
applied to the Position Set count-field width `p_bit` — 4 for
`UefiDecompress` (Classic), 5 for `TianoDecompress` (TianoVariant); the
selector is consulted nowhere else. -/
theorem decompress_variants_differ_only_in_p_bit (src dst : List Nat) :
    decompress_into_with_algo src dst .UefiDecompress = decompressWithPBit src dst 4 ∧
    decompress_into_with_algo src dst .TianoDecompress = decompressWithPBit src dst 5 :=
  ⟨rfl, rfl⟩

/-- Claim C8: whenever the source has at least 8 bytes, its `compressed_size`
field is within bounds and its `orig_size` field (bytes 4..8, little-endian)
is zero, `decompress_into_with_algo` succeeds immediately with the
destination returned entirely unchanged, for any destination, any algorithm
variant and any payload after the header. -/
theorem decompress_zero_orig_size_writes_nothing (src dst : List Nat)
    (algo : DecompressionAlgorithm) (h8 : 8 ≤ src.length)
    (hcs : leU32 (src.getD 0 0) (src.getD 1 0) (src.getD 2 0) (src.getD 3 0) ≤ src.length)
    (ho : leU32 (src.getD 4 0) (src.getD 5 0) (src.getD 6 0) (src.getD 7 0) = 0) :
    decompress_into_with_algo src dst algo = .ok dst := by
  unfold decompress_into_with_algo decompressWithPBit
  rw [if_neg (by omega), if_neg (by omega), if_pos ho]

theorem decompress_zero_orig_size_writes_nothing_witness :
    decompress_into_with_algo [8, 0, 0, 0, 0, 0, 0, 0] [7, 7] .UefiDecompress = .ok [7, 7] :=
  decompress_zero_orig_size_writes_nothing [8, 0, 0, 0, 0, 0, 0, 0] [7, 7] .UefiDecompress
    (by decide) (by decide) (by decide)

/-- Claim C2: `decompress_into_with_algo` validates the header in order:
`InvalidSrcSize` for fewer than 8 source bytes; then `InvalidSrcSize` when
the little-endian `compressed_size` in bytes 0..4 exceeds the source length;
then immediate success when the little-endian `orig_size` in bytes 4..8 is
zero; then `InvalidDstSize` when a nonzero `orig_size` differs from the
destination length; and only past all four checks does it start the decode
loop over `src[8..]`. -/
theorem decompress_header_validation_order (src dst : List Nat)
    (algo : DecompressionAlgorithm) :
    (src.length < 8 → decompress_into_with_algo src dst algo = .err .InvalidSrcSize) ∧
    (8 ≤ src.length →
      src.length < leU32 (src.getD 0 0) (src.getD 1 0) (src.getD 2 0) (src.getD 3 0) →
      decompress_into_with_algo src dst algo = .err .InvalidSrcSize) ∧
    (8 ≤ src.length →
      leU32 (src.getD 0 0) (src.getD 1 0) (src.getD 2 0) (src.getD 3 0) ≤ src.length →
      leU32 (src.getD 4 0) (src.getD 5 0) (src.getD 6 0) (src.getD 7 0) = 0 →
      decompress_into_with_algo src dst algo = .ok dst) ∧
    (8 ≤ src.length →
      leU32 (src.getD 0 0) (src.getD 1 0) (src.getD 2 0) (src.getD 3 0) ≤ src.length →
      leU32 (src.getD 4 0) (src.getD 5 0) (src.getD 6 0) (src.getD 7 0) ≠ 0 →
      leU32 (src.getD 4 0) (src.getD 5 0) (src.getD 6 0) (src.getD 7 0) ≠ dst.length →
      decompress_into_with_algo src dst algo = .err .InvalidDstSize) ∧
    (8 ≤ src.length →
      leU32 (src.getD 0 0) (src.getD 1 0) (src.getD 2 0) (src.getD 3 0) ≤ src.length →
      leU32 (src.getD 4 0) (src.getD 5 0) (src.getD 6 0) (src.getD 7 0) ≠ 0 →
      leU32 (src.getD 4 0) (src.getD 5 0) (src.getD 6 0) (src.getD 7 0) = dst.length →
      decompress_into_with_algo src dst algo =
        runLoop (dst.length + 1) (initState (src.drop 8) (pBitOf algo)) dst 0) := by
  refine ⟨fun h1 => ?_, fun h1 h2 => ?_, fun h1 h2 h3 => ?_,
    fun h1 h2 h3 h4 => ?_, fun h1 h2 h3 h4 => ?_⟩ <;>
    unfold decompress_into_with_algo decompressWithPBit
  · rw [if_pos h1]
  · rw [if_neg (by omega), if_pos h2]
  · rw [if_neg (by omega), if_neg (by omega), if_pos h3]
  · rw [if_neg (by omega), if_neg (by omega), if_neg h3, if_pos h4]
  · rw [if_neg (by omega), if_neg (by omega), if_neg h3, if_neg (fun h => h h4)]

/-- Claim C3: a successful decode fills the destination exactly. Every `ok`
result of `decompress_into_with_algo` has exactly the destination's length
(writes are bounds-checked, so success certifies no write beyond the
destination); a successful back-reference copy advances the write index to
`min (dst_idx + len) (dst.len())` — cut off at the boundary; and as soon as a
symbol fills the destination the loop returns without consuming any further
symbol. -/
theorem decompress_ok_fills_dst_exactly :
    (∀ src dst algo out, decompress_into_with_algo src dst algo = .ok out →
      out.length = dst.length) ∧
    (∀ dst dstIdx readIdx len (p : List Nat × Nat), dstIdx ≤ dst.length →
      copyStr dst dstIdx readIdx len = .ok p →
      p.2 = min (dstIdx + len) dst.length) ∧
    (∀ fuel st dst dstIdx (p : List Nat × Nat) s, next st = .ok s →
      applySymbol dst dstIdx s.1 = .ok p → p.2 = p.1.length →
      runLoop (fuel + 1) st dst dstIdx = .ok p.1) := by
  refine ⟨?_, ?_, ?_⟩
  · intro src dst algo out h
    unfold decompress_into_with_algo decompressWithPBit at h
    split at h
    · simp at h
    · split at h
      · simp at h
      · split at h
        · cases h; rfl
        · split at h
          · simp at h
          · exact runLoop_ok_length _ _ _ _ _ h
  · intro dst dstIdx readIdx len p hle h
    exact copyStr_min _ _ _ _ _ hle h
  · intro fuel st dst dstIdx p s hnx hap hfull
    unfold runLoop
    rw [hnx]
    simp only [DRes.monad_bind, DRes.bind_ok]
    rw [hap]
    simp only [DRes.bind_ok]
    rw [if_pos hfull]

theorem decompress_ok_fills_dst_exactly_witness :
    ([7, 7] : List Nat).length = ([7, 7] : List Nat).length ∧
    (3 : Nat) = min (1 + 5) ([1, 2, 3] : List Nat).length ∧
    runLoop 5 stLit [0] 0 = .ok [65] :=
  ⟨decompress_ok_fills_dst_exactly.1 [8, 0, 0, 0, 0, 0, 0, 0] [7, 7] .UefiDecompress
      [7, 7] rfl,
    decompress_ok_fills_dst_exactly.2.1 [1, 2, 3] 1 0 5 ([1, 1, 1], 3) (by simp) rfl,
    decompress_ok_fills_dst_exactly.2.2 4 stLit [0] 0 ([65], 1)
      (.OrigChar 65, { stLit with remainingBlockSize := 0 }) rfl rfl rfl⟩

/-- Claim C4: a Char&Length value of at least 256 decodes to a back-reference
of length `value - 253` (so lengths 3..256, the value being below 510); the
copy start is `dst_idx - distance - 1` via checked subtraction, returning
`MalformedSrcData` on underflow and otherwise running the byte-at-a-time
overlapping copy; and the synthetic two-symbol stream of a literal 65
followed by a distance-0 length-5 back-reference produces six copies of 65. -/
theorem backreference_length_underflow_overlap :
    (∀ d, 256 ≤ d → d < 510 → strPointerLen d = d - 253 ∧
      3 ≤ strPointerLen d ∧ strPointerLen d ≤ 256) ∧
    (∀ st s, nextSymbolCore st = .ok s → ∀ offset len, s.1 = .StrPointer offset len →
      3 ≤ len ∧ len ≤ 256) ∧
    (∀ dst dstIdx offset len, dstIdx < offset + 1 →
      applySymbol dst dstIdx (.StrPointer offset len) = .err .MalformedSrcData) ∧
    (∀ dst dstIdx offset len, offset + 1 ≤ dstIdx →
      applySymbol dst dstIdx (.StrPointer offset len) =
        copyStr dst dstIdx (dstIdx - offset - 1) len) ∧
    runSymbols [.OrigChar 65, .StrPointer 0 5] [0, 0, 0, 0, 0, 0] 0 =
      .ok [65, 65, 65, 65, 65, 65] := by
  refine ⟨?_, ?_, ?_, ?_, by decide⟩
  · intro d h1 h2
    refine ⟨rfl, ?_, ?_⟩ <;> (simp only [strPointerLen]; omega)
  · intro st s h offset len hsym
    unfold nextSymbolCore at h
    cases hpk : peekBits st CTABLE_BITSIZE with
    | ok bits =>
      rw [hpk] at h
      simp only [DRes.monad_bind, DRes.bind_ok] at h
      by_cases hc : st.cTable (loadBE bits) < NC
      · rw [if_pos hc] at h
        simp only [DRes.monad_bind, DRes.monad_pure, DRes.bind_ok] at h
        exact emitSymbol_backref _ _ _ hc h offset len hsym
      · rw [if_neg hc] at h
        cases hw : treeWalk st NC (st.src.length + 1) CTABLE_BITSIZE
            (st.cTable (loadBE bits)) with
        | ok v =>
          rw [hw] at h
          simp only [DRes.bind_ok] at h
          exact emitSymbol_backref _ _ _ (treeWalk_lt _ _ _ _ _ _ hw) h offset len hsym
        | err e => rw [hw] at h; simp [DRes.bind] at h
        | panic => rw [hw] at h; simp [DRes.bind] at h
    | err e => rw [hpk] at h; simp [DRes.bind] at h
    | panic => rw [hpk] at h; simp [DRes.bind] at h
  · intro dst dstIdx offset len hlt
    simp only [applySymbol]
    rw [if_neg (by omega)]
  · intro dst dstIdx offset len hle
    simp only [applySymbol]
    rw [if_pos hle]

/-- Claim C7: the position decoder returns distance `v` when the matched
Position Set symbol `v` is 0 or 1, and otherwise reads exactly `v - 1`
further raw bits `s` and returns distance `2^(v-1) + s`; exactly the matched
symbol's own code length `pt_len[v]` is consumed before those suffix bits. -/
theorem decode_position_suffix_bits (st : CodeIterState) (v : Nat) (st1 : CodeIterState)
    (h : decodePtSymbol st MAXNP = .ok (v, st1)) :
    v < MAXNP ∧
    st1.srcIndex = st.srcIndex + st.ptLen v ∧
    (v ≤ 1 → decodePosition st = .ok (v, st1)) ∧
    (1 < v → ∀ bits st2, popBits st1 (v - 1) = .ok (bits, st2) →
      decodePosition st = .ok (2 ^ (v - 1) + loadBE bits, st2)) := by
  obtain ⟨hv, hst⟩ := decodePtSymbol_ok st MAXNP v st1 h
  refine ⟨hv, by rw [hst], ?_, ?_⟩
  · intro hle
    unfold decodePosition
    rw [h]
    simp only [DRes.monad_bind, DRes.bind_ok]
    rw [if_pos hle]
    rfl
  · intro hgt bits st2 hpp
    unfold decodePosition
    rw [h]
    simp only [DRes.monad_bind, DRes.bind_ok]
    rw [if_neg (by omega), hpp]
    simp only [DRes.bind_ok, DRes.monad_pure]
    rw [Nat.one_shiftLeft]

theorem decode_position_suffix_bits_witness :
    decodePosition stP = .ok (2 ^ (5 - 1) + loadBE (List.replicate 4 false), stP4) :=
  (decode_position_suffix_bits stP 5 stP rfl).2.2.2 (by omega)
    (List.replicate 4 false) stP4 rfl

theorem backreference_length_underflow_overlap_witness :
    (3 ≤ strPointerLen 300 ∧ strPointerLen 300 ≤ 256) ∧
    applySymbol [] 0 (.StrPointer 5 3) = .err .MalformedSrcData ∧
    applySymbol [1, 2] 1 (.StrPointer 0 4) = copyStr [1, 2] 1 0 4 :=
  ⟨backreference_length_underflow_overlap.2.1 stBR
      (.StrPointer 0 (strPointerLen 300), stBR) rfl 0 (strPointerLen 300) rfl,
    backreference_length_underflow_overlap.2.2.1 [] 0 5 3 (by omega),
    backreference_length_underflow_overlap.2.2.2.1 [1, 2] 1 0 4 (by omega)⟩

/-- Claim C6: in the Char&Length length-array decoder, a decoded Extra Set
symbol 0 emits exactly one zero-length entry; symbol 1 reads the next 4 bits
`v` and emits a zero-run of `v + 3` entries; symbol 2 reads the next 9 bits
`v` and emits a zero-run of `v + 20` entries; any other symbol `s` emits one
entry of code length `s - 2`; and once the entry loop has consumed the
declared count of logical entries, ending at index `idx` (declared count ≤
`idx` ≤ 510), every remaining slot in `[idx, 510)` of the length array is
zero-filled, and the table is built from exactly that zero-filled array. -/
theorem read_c_len_symbol_interpretation :
    (∀ st idx, idx < NC → interpretCSymbol st idx 0 =
      .ok ({ st with cLen := fillF st.cLen idx (idx + 1) 0 }, idx + 1)) ∧
    (∀ st idx bits st2, popBits st 4 = .ok (bits, st2) →
      idx + (loadBE bits + 3) ≤ NC →
      interpretCSymbol st idx 1 =
        .ok ({ st2 with cLen := fillF st2.cLen idx (idx + (loadBE bits + 3)) 0 },
          idx + (loadBE bits + 3))) ∧
    (∀ st idx bits st2, popBits st CBIT = .ok (bits, st2) →
      idx + (loadBE bits + 20) ≤ NC →
      interpretCSymbol st idx 2 =
        .ok ({ st2 with cLen := fillF st2.cLen idx (idx + (loadBE bits + 20)) 0 },
          idx + (loadBE bits + 20))) ∧
    (∀ st idx s, 2 < s → idx < NC → interpretCSymbol st idx s =
      .ok ({ st with cLen := setF st.cLen idx (s - 2) }, idx + 1)) ∧
    (∀ st (r : List Bool × CodeIterState) (p : CodeIterState × Nat),
      popBits st CBIT = .ok r → loadBE r.1 ≠ 0 →
      readCLenLoop (loadBE r.1 + 1) r.2 (loadBE r.1) 0 = .ok p →
      loadBE r.1 ≤ p.2 ∧ p.2 ≤ NC ∧
      (∀ j, p.2 ≤ j → j < NC → fillF p.1.cLen p.2 NC 0 j = 0) ∧
      readCLen st = DRes.bind
        (buildHuffmanTable NC (fillF p.1.cLen p.2 NC 0) CTABLE_BITSIZE
          p.1.cTable p.1.left p.1.right)
        (fun t => pure { p.1 with
          cLen := fillF p.1.cLen p.2 NC 0,
          cTable := t.1, left := t.2.1, right := t.2.2 })) := by
  refine ⟨?_, ?_, ?_, ?_, ?_⟩
  · intro st idx hidx
    unfold interpretCSymbol
    rw [if_pos (by decide : (0:Nat) ≤ 2), if_pos (rfl : (0:Nat) = 0)]
    simp only [DRes.monad_bind, DRes.monad_pure, DRes.bind_ok]
    rw [if_neg (by rw [NC_eq] at hidx ⊢; omega)]
  · intro st idx bits st2 hpp hle
    unfold interpretCSymbol
    rw [if_pos (by decide : (1:Nat) ≤ 2), if_neg (by decide : ¬(1:Nat) = 0),
      if_pos (rfl : (1:Nat) = 1), hpp]
    simp only [DRes.monad_bind, DRes.monad_pure, DRes.bind_ok]
    rw [if_neg (by rw [NC_eq] at hle ⊢; omega)]
  · intro st idx bits st2 hpp hle
    unfold interpretCSymbol
    rw [if_pos (by decide : (2:Nat) ≤ 2), if_neg (by decide : ¬(2:Nat) = 0),
      if_neg (by decide : ¬(2:Nat) = 1), hpp]
    simp only [DRes.monad_bind, DRes.monad_pure, DRes.bind_ok]
    rw [if_neg (by rw [NC_eq] at hle ⊢; omega)]
  · intro st idx s hs hidx
    unfold interpretCSymbol
    rw [if_neg (by omega), if_neg (by rw [NC_eq] at hidx ⊢; omega)]
  · intro st r p hpop hne hloop
    refine ⟨readCLenLoop_ge _ _ _ _ _ hloop,
      readCLenLoop_le _ _ _ _ _ hloop (by omega), fun j h1 h2 => ?_, ?_⟩
    · simp only [fillF]
      rw [if_pos ⟨h1, h2⟩]
    · unfold readCLen
      rw [hpop]
      simp only [DRes.monad_bind, DRes.bind_ok]
      rw [if_neg hne, hloop]
      simp only [DRes.bind_ok]

theorem read_c_len_symbol_interpretation_witness :
    (interpretCSymbol stP 0 1 =
      .ok ({ stP4 with cLen := fillF stP4.cLen 0 3 0 }, 3)) ∧
    ∃ (r : List Bool × CodeIterState) (p : CodeIterState × Nat),
      popBits stC CBIT = .ok r ∧ loadBE r.1 ≠ 0 ∧
      readCLenLoop (loadBE r.1 + 1) r.2 (loadBE r.1) 0 = .ok p ∧
      loadBE r.1 ≤ p.2 ∧
      ∀ j, p.2 ≤ j → j < NC → fillF p.1.cLen p.2 NC 0 j = 0 := by
  refine ⟨read_c_len_symbol_interpretation.2.1 stP 0 (List.replicate 4 false) stP4 rfl
    (by decide), ?_⟩
  obtain ⟨h1, h2, h3, h4⟩ :=
    read_c_len_symbol_interpretation.2.2.2.2 stC _ _ rfl (by decide) rfl
  exact ⟨_, _, rfl, by decide, rfl, h1, h3⟩

/-- Claim C5, counterexample: the code-length array `[1, 1]` over 2 symbols
— the claim's own example of an array it says is rejected with
`MalformedSrcData` — is accepted by `build_huffman_table`: it is in fact a
complete canonical code, and its `start[17]` accumulator wraps to 0 in
`u16` arithmetic (`2 << 15 = 0`), so the coverage check passes. -/
theorem build_huffman_table_accepts_complete_pair :
    (buildHuffmanTable 2 lensPair 8 zeroArr zeroArr zeroArr).isOk = true := rfl

/-- Claim C5, amended: `build_huffman_table` computes
`start[len+1] = start[len] + count[len] << (16-len)` in wrapping 16-bit
arithmetic and returns `MalformedSrcData` whenever some length exceeds 16 or
the wrapped `start[17]` is nonzero; the `start[17] == 0` test therefore means
coverage ≡ 0 mod 2^16 rather than exact coverage. The complete array `[1, 1]`
over 2 symbols is accepted, while the incomplete array `[1, 0]` is rejected
with `MalformedSrcData`. -/
theorem build_huffman_table_rejection_amended :
    (∀ numSymbols (bl : Nat → Nat) tableBits table left right, tableBits ≤ 16 →
      (∃ i, i < numSymbols ∧ 16 < bl i) →
      buildHuffmanTable numSymbols bl tableBits table left right =
        .err .MalformedSrcData) ∧
    (∀ numSymbols (bl : Nat → Nat) tableBits table left right count, tableBits ≤ 16 →
      tallyGo bl numSymbols 0 (fun _ => 0) = .ok count → startAt count 17 ≠ 0 →
      buildHuffmanTable numSymbols bl tableBits table left right =
        .err .MalformedSrcData) ∧
    (buildHuffmanTable 2 lensPair 8 zeroArr zeroArr zeroArr).isOk = true ∧
    buildHuffmanTable 2 lensHalf 8 zeroArr zeroArr zeroArr =
      .err .MalformedSrcData := by
  refine ⟨?_, ?_, rfl, rfl⟩
  · intro numSymbols bl tableBits table left right htb ⟨i, hi, hbad⟩
    unfold buildHuffmanTable
    rw [if_neg (by omega), tallyGo_err bl numSymbols 0 _ ⟨i, hi, by simpa using hbad⟩]
    rfl
  · intro numSymbols bl tableBits table left right count htb htally hne
    unfold buildHuffmanTable
    rw [if_neg (by omega), htally]
    simp only [DRes.monad_bind, DRes.bind_ok]
    rw [if_pos hne]

theorem build_huffman_table_rejection_amended_witness :
    buildHuffmanTable 1 (fun _ => 17) 8 zeroArr zeroArr zeroArr =
      .err .MalformedSrcData ∧
    buildHuffmanTable 2 lensHalf 8 zeroArr zeroArr zeroArr =
      .err .MalformedSrcData :=
  ⟨build_huffman_table_rejection_amended.1 1 (fun _ => 17) 8 zeroArr zeroArr zeroArr
      (by omega) ⟨0, by omega, by decide⟩,
    build_huffman_table_rejection_amended.2.1 2 lensHalf 8 zeroArr zeroArr zeroArr _
      (by omega) rfl (by decide)⟩

/-- Claim C10, counterexample: the `left`/`right` arrays are the shared
secondary-tree arena (`2 * NC - 1 = 1019` entries for every alphabet), so a
successful `build_huffman_table` call with `num_symbols = 19` leaves entries
it did not write — here a node id 700 retained at index 900, exactly as
Char&Length node ids in `[510, 1019)` persist through the subsequent Extra
and Position Set builds of the same block — and 700 is neither a leaf id
below 19 nor inside `[19, 2*19-1)`. -/
theorem build_huffman_table_node_id_range_counterexample :
    (buildHuffmanTable 19 lensPair 8 zeroArr staleLeft zeroArr).isOk = true ∧
    tbl2 (buildHuffmanTable 19 lensPair 8 zeroArr staleLeft zeroArr) 900 = 700 ∧
    ¬(700 < 19 ∨ (19 ≤ 700 ∧ 700 < 2 * 19 - 1)) :=
  ⟨rfl, rfl, by decide⟩

/-- Claim C10, amended: after a successful `build_huffman_table` call whose
input arrays already satisfy the shared arena bound, every value stored in
the fixed table and in the `left`/`right` arrays is either a leaf id below
`num_symbols` or an id in `[num_symbols, 2*NC-1)` where `NC = 510` — the
bound the allocator actually enforces (`next_avail_node < 2*NC-1`) — rather
than `[num_symbols, 2*num_symbols-1)`. -/
theorem build_huffman_table_node_ids_amended (numSymbols : Nat) (bl : Nat → Nat)
    (tableBits : Nat) (table left right t l r : Nat → Nat)
    (h2 : numSymbols ≤ NC)
    (hT : ArrOk table) (hL : ArrOk left) (hR : ArrOk right)
    (hOk : buildHuffmanTable numSymbols bl tableBits table left right = .ok (t, l, r)) :
    ∀ i, (t i < numSymbols ∨ (numSymbols ≤ t i ∧ t i < 2 * NC - 1)) ∧
         (l i < numSymbols ∨ (numSymbols ≤ l i ∧ l i < 2 * NC - 1)) ∧
         (r i < numSymbols ∨ (numSymbols ≤ r i ∧ r i < 2 * NC - 1)) := by
  have hfin : ArrOk t ∧ ArrOk l ∧ ArrOk r := by
    unfold buildHuffmanTable at hOk
    split at hOk
    · simp at hOk
    · cases htl : tallyGo bl numSymbols 0 (fun _ => 0) with
      | ok count =>
        rw [htl] at hOk
        simp only [DRes.monad_bind, DRes.bind_ok] at hOk
        split at hOk
        · simp at hOk
        · cases hbf : buildFrom bl tableBits 0 numSymbols
              (buildInitSt numSymbols tableBits count table left right) with
          | ok stF =>
            rw [hbf] at hOk
            simp only [DRes.bind_ok, DRes.monad_pure] at hOk
            have hinit : StOk (buildInitSt numSymbols tableBits count table left right) := by
              refine ⟨?_, hL, hR⟩
              unfold buildInitSt zeroedTable
              split
              · exact fillF_lt _ _ _ _ hT (by decide)
              · exact hT
            have hstF : StOk stF :=
              buildFrom_ok bl tableBits numSymbols 0 _ _
                (by rw [NC_eq] at h2 ⊢; omega) hinit hbf
            simp only [DRes.ok.injEq, Prod.mk.injEq] at hOk
            obtain ⟨het, hel, her⟩ := hOk
            exact ⟨het ▸ hstF.1, hel ▸ hstF.2.1, her ▸ hstF.2.2⟩
          | err e => rw [hbf] at hOk; simp [DRes.bind] at hOk
          | panic => rw [hbf] at hOk; simp [DRes.bind] at hOk
      | err e => rw [htl] at hOk; simp [DRes.bind] at hOk
      | panic => rw [htl] at hOk; simp [DRes.bind] at hOk
  intro i
  refine ⟨?_, ?_, ?_⟩
  · rcases Nat.lt_or_ge (t i) numSymbols with hlt | hge
    · exact Or.inl hlt
    · exact Or.inr ⟨hge, hfin.1 i⟩
  · rcases Nat.lt_or_ge (l i) numSymbols with hlt | hge
    · exact Or.inl hlt
    · exact Or.inr ⟨hge, hfin.2.1 i⟩
  · rcases Nat.lt_or_ge (r i) numSymbols with hlt | hge
    · exact Or.inl hlt
    · exact Or.inr ⟨hge, hfin.2.2 i⟩

theorem build_huffman_table_node_ids_amended_witness :
    ∃ t l r, buildHuffmanTable 2 lensPair 8 zeroArr zeroArr zeroArr = .ok (t, l, r) ∧
      (t 0 < 2 ∨ (2 ≤ t 0 ∧ t 0 < 2 * NC - 1)) := by
  refine ⟨_, _, _, rfl, ?_⟩
  exact (build_huffman_table_node_ids_amended 2 lensPair 8 zeroArr zeroArr zeroArr
    _ _ _ (by decide) (fun i => by simp only [zeroArr]; decide)
    (fun i => by simp only [zeroArr]; decide) (fun i => by simp only [zeroArr]; decide)
    rfl 0).1

theorem decompress_header_validation_order_witness :
    decompress_into_with_algo [1, 2, 3] [] .UefiDecompress = .err .InvalidSrcSize ∧
    decompress_into_with_algo [9, 0, 0, 0, 1, 0, 0, 0] [] .UefiDecompress =
      .err .InvalidSrcSize ∧
    decompress_into_with_algo [8, 0, 0, 0, 0, 0, 0, 0] [3] .UefiDecompress = .ok [3] ∧
    decompress_into_with_algo [8, 0, 0, 0, 2, 0, 0, 0] [3] .UefiDecompress =
      .err .InvalidDstSize := by
  refine ⟨(decompress_header_validation_order [1, 2, 3] [] .UefiDecompress).1 (by decide),
    (decompress_header_validation_order [9, 0, 0, 0, 1, 0, 0, 0] [] .UefiDecompress).2.1
      (by decide) (by decide),
    (decompress_header_validation_order [8, 0, 0, 0, 0, 0, 0, 0] [3] .UefiDecompress).2.2.1
      (by decide) (by decide) (by decide),
    (decompress_header_validation_order [8, 0, 0, 0, 2, 0, 0, 0] [3] .UefiDecompress).2.2.2.1
      (by decide) (by decide) (by decide) (by decide)⟩

end UefiDecompress
